import Mathlib

/-!
# Formal model of the random-art expression engine (src/randomart.py)

This file embeds the generative core of the repository in Lean:

* the numeric helpers `average`, `rgb`, `well`, `tent`;
* the expression-node model as an inductive type `Expr`, with the stored
  random parameters of `Constant`, `Sin` and `Level` as constructor fields;
* the recursive evaluator, once as the pure function `eval` and once as the
  state-threading function `evalM` that makes explicit that evaluation
  neither mutates the tree nor consumes the ambient random stream;
* the budget-driven random generator `generate`, over an explicit random
  tape (`RandGen`) standing for the process-wide generator of the source,
  with an explicit fuel argument standing for the call stack: the
  termination theorem shows a fuel of budget + 1 always suffices.

Real numbers model Python floats; Python int() truncation toward zero is
`pyint`; the float remainder operator, which raises on a zero divisor, is
the `Option`-valued `pymod`.
-/

/-- The weighted average of two color triples, from the source function
average(c1, c2, w); the source gives w the default value 0.5 and every
call site uses that default. -/
def average (c1 c2 : ℝ × ℝ × ℝ) (w : ℝ) : ℝ × ℝ × ℝ :=
  (w * c1.1 + (1 - w) * c2.1,
   w * c1.2.1 + (1 - w) * c2.2.1,
   w * c1.2.2 + (1 - w) * c2.2.2)

/-- Python int() applied to a float: truncation toward zero. -/
noncomputable def pyint (z : ℝ) : ℤ :=
  if 0 ≤ z then ⌊z⌋ else ⌈z⌉

/-- One channel of the source function rgb: max(0, min(255, int(128 * (v + 1)))). -/
noncomputable def rgbChannel (v : ℝ) : ℤ :=
  max 0 (min 255 (pyint (128 * (v + 1))))

/-- The source function rgb(r, g, b), modelled as the triple of clamped
8-bit channel values (the final hex-string formatting for tkinter is
display plumbing outside the numeric core). -/
noncomputable def rgb (r g b : ℝ) : ℤ × ℤ × ℤ :=
  (rgbChannel r, rgbChannel g, rgbChannel b)

/-- The source function well(x) = 1 - 2 / (1 + x*x) ** 8. -/
noncomputable def well (x : ℝ) : ℝ :=
  1 - 2 / (1 + x * x) ^ (8 : ℕ)

/-- The source function tent(x) = 1 - 2 * abs(x). -/
def tent (x : ℝ) : ℝ :=
  1 - 2 * |x|

/-- The Python float remainder a % b: it raises ZeroDivisionError when
b == 0 (modelled as none) and otherwise returns a - b * floor(a / b),
the remainder taking the sign of the divisor. -/
noncomputable def pymod (a b : ℝ) : Option ℝ :=
  if b = 0 then none else some (a - b * (⌊a / b⌋ : ℤ))

/-- Expression trees. Each class of the source becomes one constructor;
the random parameters a node draws in its constructor (the color triple
of Constant, phase and frequency of Sin, the threshold of Level) become
constructor fields, fixed once the node exists. -/
inductive Expr where
  | VariableX : Expr
  | VariableY : Expr
  | Constant : ℝ × ℝ × ℝ → Expr
  | Sum : Expr → Expr → Expr
  | Product : Expr → Expr → Expr
  | Mod : Expr → Expr → Expr
  | Well : Expr → Expr
  | Tent : Expr → Expr
  | Sin : ℝ → ℝ → Expr → Expr
  | Level : ℝ → Expr → Expr → Expr → Expr
  | Mix : Expr → Expr → Expr → Expr

/-- The recursive evaluator, one equation per eval method of the source.
Mod evaluates both children, then attempts the three channel remainders
and falls back to (0,0,0) for the whole triple when any of them fails.
Mix computes a weight from the first child but passes average its default
weight, so the weight is unused, exactly as in the source. -/
noncomputable def eval : Expr → ℝ → ℝ → ℝ × ℝ × ℝ
  | .VariableX, x, _ => (x, x, x)
  | .VariableY, _, y => (y, y, y)
  | .Constant c, _, _ => c
  | .Sum e1 e2, x, y => average (eval e1 x y) (eval e2 x y) 0.5
  | .Product e1 e2, x, y =>
      let c1 := eval e1 x y
      let c2 := eval e2 x y
      (c1.1 * c2.1, c1.2.1 * c2.2.1, c1.2.2 * c2.2.2)
  | .Mod e1 e2, x, y =>
      let c1 := eval e1 x y
      let c2 := eval e2 x y
      match pymod c1.1 c2.1, pymod c1.2.1 c2.2.1, pymod c1.2.2 c2.2.2 with
      | some r3, some g3, some b3 => (r3, g3, b3)
      | _, _, _ => (0, 0, 0)
  | .Well e, x, y =>
      let c := eval e x y
      (well c.1, well c.2.1, well c.2.2)
  | .Tent e, x, y =>
      let c := eval e x y
      (tent c.1, tent c.2.1, tent c.2.2)
  | .Sin phase freq e, x, y =>
      let c := eval e x y
      (Real.sin (phase + freq * c.1),
       Real.sin (phase + freq * c.2.1),
       Real.sin (phase + freq * c.2.2))
  | .Level t lv e1 e2, x, y =>
      let c1 := eval lv x y
      let c2 := eval e1 x y
      let c3 := eval e2 x y
      (if c1.1 < t then c2.1 else c3.1,
       if c1.2.1 < t then c2.2.1 else c3.2.1,
       if c1.2.2 < t then c2.2.2 else c3.2.2)
  | .Mix w e1 e2, x, y =>
      let _wv := 0.5 * ((eval w x y).1 + 1.0)
      average (eval e1 x y) (eval e2 x y) 0.5

/-- The evaluator with the ambient mutable world made explicit: every call
returns the color, the tree after the call, and the position of the global
random stream after the call. Each equation is the corresponding eval
method of the source, which reads its fields, recurses into its children
in source order, never writes a field and never draws randomness. -/
noncomputable def evalM : Expr → ℝ → ℝ → ℕ → (ℝ × ℝ × ℝ) × Expr × ℕ
  | .VariableX, x, _, s => ((x, x, x), .VariableX, s)
  | .VariableY, _, y, s => ((y, y, y), .VariableY, s)
  | .Constant c, _, _, s => (c, .Constant c, s)
  | .Sum e1 e2, x, y, s =>
      let r1 := evalM e1 x y s
      let r2 := evalM e2 x y r1.2.2
      (average r1.1 r2.1 0.5, .Sum r1.2.1 r2.2.1, r2.2.2)
  | .Product e1 e2, x, y, s =>
      let r1 := evalM e1 x y s
      let r2 := evalM e2 x y r1.2.2
      ((r1.1.1 * r2.1.1, r1.1.2.1 * r2.1.2.1, r1.1.2.2 * r2.1.2.2),
       .Product r1.2.1 r2.2.1, r2.2.2)
  | .Mod e1 e2, x, y, s =>
      let r1 := evalM e1 x y s
      let r2 := evalM e2 x y r1.2.2
      (match pymod r1.1.1 r2.1.1, pymod r1.1.2.1 r2.1.2.1, pymod r1.1.2.2 r2.1.2.2 with
       | some r3, some g3, some b3 => (r3, g3, b3)
       | _, _, _ => (0, 0, 0),
       .Mod r1.2.1 r2.2.1, r2.2.2)
  | .Well e, x, y, s =>
      let r := evalM e x y s
      ((well r.1.1, well r.1.2.1, well r.1.2.2), .Well r.2.1, r.2.2)
  | .Tent e, x, y, s =>
      let r := evalM e x y s
      ((tent r.1.1, tent r.1.2.1, tent r.1.2.2), .Tent r.2.1, r.2.2)
  | .Sin phase freq e, x, y, s =>
      let r := evalM e x y s
      ((Real.sin (phase + freq * r.1.1),
        Real.sin (phase + freq * r.1.2.1),
        Real.sin (phase + freq * r.1.2.2)),
       .Sin phase freq r.2.1, r.2.2)
  | .Level t lv e1 e2, x, y, s =>
      let r1 := evalM lv x y s
      let r2 := evalM e1 x y r1.2.2
      let r3 := evalM e2 x y r2.2.2
      ((if r1.1.1 < t then r2.1.1 else r3.1.1,
        if r1.1.2.1 < t then r2.1.2.1 else r3.1.2.1,
        if r1.1.2.2 < t then r2.1.2.2 else r3.1.2.2),
       .Level t r1.2.1 r2.2.1 r3.2.1, r3.2.2)
  | .Mix w e1 e2, x, y, s =>
      let rw := evalM w x y s
      let _wv := 0.5 * (rw.1.1 + 1.0)
      let r1 := evalM e1 x y rw.2.2
      let r2 := evalM e2 x y r1.2.2
      (average r1.1 r2.1 0.5, .Mix rw.2.1 r1.2.1 r2.2.1, r2.2.2)

/-! ## The generator

The source draws from the process-wide random generator. We model that
generator as an infinite tape of draws together with the current position
in it: raw natural draws on one track (randrange k reads the next cell
and reduces it modulo k; random.choice over a list of length n likewise),
raw unit draws on a real track (uniform(a, b) reads the next cell u and
returns a + (b - a) * u). Every primitive consumes one position, so calls
are draws at distinct positions, the tape analogue of independent draws. -/

/-- An infinite random tape: the natural track feeds randrange and choice,
the real track feeds uniform. -/
structure RandGen where
  nat : ℕ → ℕ
  unit : ℕ → ℝ

/-- random.uniform(a, b) at tape position s: a + (b - a) * u for the next
unit draw u. -/
noncomputable def uniform (g : RandGen) (a b : ℝ) (s : ℕ) : ℝ :=
  a + (b - a) * g.unit s

/-- The node kinds, in the order of the source tuple
operators = (VariableX, VariableY, Constant, Sum, Product, Mod, Sin, Tent, Well, Level, Mix). -/
inductive Op where
  | varX | varY | const | sum | product | mod | sin | tent | well | level | mix
deriving DecidableEq

/-- The arity class attribute of each node kind. -/
def Op.arity : Op → ℕ
  | .varX => 0
  | .varY => 0
  | .const => 0
  | .sum => 2
  | .product => 2
  | .mod => 2
  | .sin => 1
  | .tent => 1
  | .well => 1
  | .level => 3
  | .mix => 3

/-- The source tuple operators. -/
def operators : List Op :=
  [.varX, .varY, .const, .sum, .product, .mod, .sin, .tent, .well, .level, .mix]

/-- operators0 = [op for op in operators if op.arity == 0]. -/
def operators0 : List Op :=
  operators.filter (fun op => op.arity == 0)

/-- operators1 = [op for op in operators if op.arity > 0]. -/
def operators1 : List Op :=
  operators.filter (fun op => decide (0 < op.arity))

/-- A raw generated tree: a node kind, the random parameters its
constructor drew, and the list of children passed to the constructor.
Unlike Expr, the child list is not forced by the kind, so that the
child-count invariant of generation is a statement, not a typing fact. -/
inductive RawExpr where
  | node : Op → List ℝ → List RawExpr → RawExpr

/-- The kind of the root node. -/
def RawExpr.op : RawExpr → Op
  | .node o _ _ => o

/-- The children of the root node. -/
def RawExpr.children : RawExpr → List RawExpr
  | .node _ _ cs => cs

/-- Well-formedness of a generated tree: every node holds exactly as many
children as its kind declares. -/
inductive WF : RawExpr → Prop where
  | node (op : Op) (ps : List ℝ) (cs : List RawExpr) :
      cs.length = op.arity → (∀ c, c ∈ cs → WF c) → WF (RawExpr.node op ps cs)

/-- random.choice(operators0) followed by the chosen constructor, from the
leaf branch of generate: VariableX and VariableY store nothing, Constant
draws three uniform(0, 1) channels. Returns the node and the new tape
position. -/
noncomputable def mkLeaf (g : RandGen) (s : ℕ) : RawExpr × ℕ :=
  let op := operators0.getD (g.nat s % operators0.length) Op.varX
  if op = Op.const then
    (RawExpr.node Op.const
      [uniform g 0 1 (s + 1), uniform g 0 1 (s + 2), uniform g 0 1 (s + 3)] [],
     s + 4)
  else
    (RawExpr.node op [] [], s + 1)

/-- op(*args) for a composite kind: the constructor stores the children
and draws its own parameters, Sin a phase in [0, pi) and a frequency in
[1, 6], Level a threshold in [-1, 1], the others nothing. -/
noncomputable def mkNode (g : RandGen) (op : Op) (cs : List RawExpr) (s : ℕ) : RawExpr × ℕ :=
  if op = Op.sin then
    (RawExpr.node op [uniform g 0 Real.pi s, uniform g 1 6 (s + 1)] cs, s + 2)
  else if op = Op.level then
    (RawExpr.node op [uniform g (-1) 1 s] cs, s + 1)
  else
    (RawExpr.node op [] cs, s)

/-- The list comprehension [random.randrange(k) for l in range(n)]:
n successive randrange(k) draws, returned with the new tape position. -/
def drawCuts (g : RandGen) (k : ℕ) : ℕ → ℕ → List ℕ × ℕ
  | 0, s => ([], s)
  | n + 1, s =>
      let j := g.nat s % k
      let rest := drawCuts g k n (s + 1)
      (j :: rest.1, rest.2)

/-- The running loop of generate: the variable i holds the previous cut
(initially 0); each cut j contributes a child budget j - i, and after the
loop the last child gets k - 1 - i. This function returns that budget
sequence. -/
def splitBudgetsGo (k : ℤ) (i : ℤ) : List ℤ → List ℤ
  | [] => [k - 1 - i]
  | j :: rest => (j - i) :: splitBudgetsGo k j rest

/-- The budgets handed to the children of a node of budget k whose sorted
cut points are cuts. -/
def splitBudgets (k : ℤ) (cuts : List ℤ) : List ℤ :=
  splitBudgetsGo k 0 cuts

/-- The args-building loop of generate: run the recursive call on each
child budget in order, threading the tape position; none propagates fuel
exhaustion of the recursive call. -/
def genList (rec : ℤ → ℕ → Option (RawExpr × ℕ)) :
    List ℤ → ℕ → Option (List RawExpr × ℕ)
  | [], s => some ([], s)
  | b :: rest, s =>
      match rec b s with
      | none => none
      | some (e, s1) =>
          match genList rec rest s1 with
          | none => none
          | some (es, s2) => some ((e :: es), s2)

/-- random.choice(operators1) at tape position s. -/
def pickOp1 (g : RandGen) (s : ℕ) : Op :=
  operators1.getD (g.nat s % operators1.length) Op.sum

/-- sorted([random.randrange(k) for l in range(a)]): a randrange(k) draws,
sorted ascending, as integers, together with the new tape position. -/
def sortedCuts (g : RandGen) (k : ℤ) (a : ℕ) (s : ℕ) : List ℤ × ℕ :=
  ((List.insertionSort (· ≤ ·) (drawCuts g k.toNat a s).1).map Int.ofNat,
   (drawCuts g k.toNat a s).2)

/-- The source function generate(k), with the random tape explicit and a
fuel argument standing for the call stack; none means the fuel ran out
(the termination theorem shows fuel k + 1 always suffices, so the source
recursion, which has no fuel, terminates). For k <= 0 a leaf is drawn
from operators0. Otherwise a composite kind is drawn from operators1, its
arity - 1 cut points are drawn by randrange(k) and sorted ascending, the
children are generated on the budget pieces between consecutive cuts, and
the constructor finally draws the parameters of the node itself. -/
noncomputable def generate (g : RandGen) : ℕ → ℤ → ℕ → Option (RawExpr × ℕ)
  | 0, _, _ => none
  | fuel + 1, k, s =>
      if k ≤ 0 then
        some (mkLeaf g s)
      else
        let op := pickOp1 g s
        let sc := sortedCuts g k (op.arity - 1) (s + 1)
        match genList (fun b s0 => generate g fuel b s0) (splitBudgets k sc.1) sc.2 with
        | none => none
        | some (cs, p) => some (mkNode g op cs p)

/-- The all-zeros tape, used to instantiate existential and witness
statements on concrete runs of the generator. -/
noncomputable def zeroGen : RandGen :=
  { nat := fun _ => 0, unit := fun _ => 0 }

/-! ## Helper lemmas -/

theorem operators0_eq : operators0 = [Op.varX, Op.varY, Op.const] := by decide

theorem operators1_eq :
    operators1 = [Op.sum, Op.product, Op.mod, Op.sin, Op.tent, Op.well, Op.level, Op.mix] := by
  decide

theorem operators0_arity : ∀ op ∈ operators0, Op.arity op = 0 := by decide

theorem operators1_arity : ∀ op ∈ operators1, 0 < Op.arity op := by decide

theorem getD_mem {α : Type} (l : List α) (i : ℕ) (d : α) (h : i < l.length) :
    l.getD i d ∈ l := by
  rw [List.getD_eq_getElem l d h]
  exact List.getElem_mem h

theorem drawCuts_fst (g : RandGen) (k : ℕ) :
    ∀ n s, (drawCuts g k n s).1 = (List.range n).map (fun l => g.nat (s + l) % k) := by
  intro n
  induction n with
  | zero => intro s; simp [drawCuts]
  | succ m ih =>
      intro s
      simp only [drawCuts, ih (s + 1), List.range_succ_eq_map, List.map_cons, List.map_map,
        List.cons.injEq]
      constructor
      · simp
      · apply List.map_congr_left
        intro a _
        simp only [Function.comp_apply]
        have h1 : s + 1 + a = s + (a + 1) := by omega
        rw [h1]

theorem drawCuts_snd (g : RandGen) (k : ℕ) :
    ∀ n s, (drawCuts g k n s).2 = s + n := by
  intro n
  induction n with
  | zero => intro s; simp [drawCuts]
  | succ m ih => intro s; simp [drawCuts, ih (s + 1)]; omega

theorem drawCuts_length (g : RandGen) (k : ℕ) (n s : ℕ) :
    (drawCuts g k n s).1.length = n := by
  simp [drawCuts_fst]

theorem drawCuts_lt (g : RandGen) (k : ℕ) (hk : 0 < k) (n s : ℕ) :
    ∀ j ∈ (drawCuts g k n s).1, j < k := by
  intro j hj
  rw [drawCuts_fst] at hj
  obtain ⟨l, _, rfl⟩ := List.mem_map.mp hj
  exact Nat.mod_lt _ hk

theorem splitBudgetsGo_eq (k : ℤ) :
    ∀ (cuts : List ℤ) (i : ℤ),
      splitBudgetsGo k i cuts =
        List.zipWith (fun c p => c - p) (cuts ++ [k - 1]) (i :: cuts) := by
  intro cuts
  induction cuts with
  | nil => intro i; simp [splitBudgetsGo]
  | cons j rest ih => intro i; simp [splitBudgetsGo, ih j]

theorem splitBudgetsGo_length (k : ℤ) :
    ∀ (cuts : List ℤ) (i : ℤ), (splitBudgetsGo k i cuts).length = cuts.length + 1 := by
  intro cuts
  induction cuts with
  | nil => intro i; simp [splitBudgetsGo]
  | cons j rest ih => intro i; simp [splitBudgetsGo, ih j]

theorem splitBudgetsGo_lt (k : ℤ) :
    ∀ (cuts : List ℤ) (i : ℤ), 0 ≤ i → (∀ j ∈ cuts, 0 ≤ j ∧ j < k) →
      ∀ b ∈ splitBudgetsGo k i cuts, b < k := by
  intro cuts
  induction cuts with
  | nil =>
      intro i hi _ b hb
      simp only [splitBudgetsGo, List.mem_singleton] at hb
      omega
  | cons j rest ih =>
      intro i hi hcuts b hb
      simp only [splitBudgetsGo, List.mem_cons] at hb
      rcases hb with rfl | hb
      · have := hcuts j (by simp)
        omega
      · exact ih j (hcuts j (by simp)).1 (fun c hc => hcuts c (by simp [hc])) b hb

theorem splitBudgets_lt (k : ℤ) (cuts : List ℤ)
    (hcuts : ∀ j ∈ cuts, 0 ≤ j ∧ j < k) :
    ∀ b ∈ splitBudgets k cuts, b < k :=
  splitBudgetsGo_lt k cuts 0 le_rfl hcuts

theorem splitBudgets_length (k : ℤ) (cuts : List ℤ) :
    (splitBudgets k cuts).length = cuts.length + 1 :=
  splitBudgetsGo_length k cuts 0

theorem genList_isSome (rec : ℤ → ℕ → Option (RawExpr × ℕ)) :
    ∀ (budgets : List ℤ) (s : ℕ),
      (∀ b ∈ budgets, ∀ s0, (rec b s0).isSome) → (genList rec budgets s).isSome := by
  intro budgets
  induction budgets with
  | nil => intro s _; simp [genList]
  | cons b rest ih =>
      intro s h
      obtain ⟨⟨e, s1⟩, he⟩ := Option.isSome_iff_exists.mp (h b (by simp) s)
      have h2 := ih s1 (fun c hc s0 => h c (by simp [hc]) s0)
      obtain ⟨⟨es, s2⟩, hes⟩ := Option.isSome_iff_exists.mp h2
      simp [genList, he, hes]

theorem genList_some (rec : ℤ → ℕ → Option (RawExpr × ℕ)) :
    ∀ (budgets : List ℤ) (s : ℕ) (es : List RawExpr) (s2 : ℕ),
      genList rec budgets s = some (es, s2) →
      es.length = budgets.length ∧
        ∀ e ∈ es, ∃ b ∈ budgets, ∃ s0 s1, rec b s0 = some (e, s1) := by
  intro budgets
  induction budgets with
  | nil =>
      intro s es s2 h
      simp only [genList, Option.some_inj, Prod.mk.injEq] at h
      obtain ⟨rfl, rfl⟩ := h
      exact ⟨rfl, fun e he => absurd he (List.not_mem_nil e)⟩
  | cons b rest ih =>
      intro s es s2 h
      simp only [genList] at h
      split at h
      · exact absurd h (by simp)
      · rename_i e s1 he
        split at h
        · exact absurd h (by simp)
        · rename_i es1 s3 hes
          simp only [Option.some_inj, Prod.mk.injEq] at h
          obtain ⟨rfl, rfl⟩ := h
          obtain ⟨hlen, hmem⟩ := ih s1 es1 s3 hes
          constructor
          · simp [hlen]
          · intro e0 he0
            rcases List.mem_cons.mp he0 with rfl | he0
            · exact ⟨b, by simp, s, s1, he⟩
            · obtain ⟨b0, hb0, s4, s5, hr⟩ := hmem e0 he0
              exact ⟨b0, by simp [hb0], s4, s5, hr⟩

theorem pickOp1_mem (g : RandGen) (s : ℕ) : pickOp1 g s ∈ operators1 :=
  getD_mem _ _ _ (Nat.mod_lt _ (by rw [operators1_eq]; simp))

theorem pickOp1_arity_pos (g : RandGen) (s : ℕ) : 0 < (pickOp1 g s).arity :=
  operators1_arity _ (pickOp1_mem g s)

theorem sortedCuts_length (g : RandGen) (k : ℤ) (a s : ℕ) :
    (sortedCuts g k a s).1.length = a := by
  simp only [sortedCuts, List.length_map, List.length_insertionSort, drawCuts_length]

theorem sortedCuts_bounds (g : RandGen) (k : ℤ) (hk : 0 < k) (a s : ℕ) :
    ∀ j ∈ (sortedCuts g k a s).1, 0 ≤ j ∧ j < k := by
  intro j hj
  simp only [sortedCuts, List.mem_map] at hj
  obtain ⟨j0, hj0, rfl⟩ := hj
  have hj1 : j0 ∈ (drawCuts g k.toNat a s).1 := (List.mem_insertionSort (· ≤ ·)).mp hj0
  have hlt := drawCuts_lt g k.toNat (by omega) a s j0 hj1
  simp only [Int.ofNat_eq_natCast]
  omega

theorem sortedCuts_sorted (g : RandGen) (k : ℤ) (a s : ℕ) :
    List.Sorted (· ≤ ·) (sortedCuts g k a s).1 := by
  simp only [sortedCuts]
  exact List.Pairwise.map _ (fun a b h => Int.ofNat_le.mpr h)
    (List.sorted_insertionSort (· ≤ ·) (drawCuts g k.toNat a s).1)

theorem mkLeaf_wf (g : RandGen) (s : ℕ) : WF (mkLeaf g s).1 := by
  simp only [mkLeaf]
  split
  · exact WF.node _ _ _ rfl (fun c hc => absurd hc (List.not_mem_nil c))
  · refine WF.node _ _ _ ?_ (fun c hc => absurd hc (List.not_mem_nil c))
    have hmem : operators0.getD (g.nat s % operators0.length) Op.varX ∈ operators0 :=
      getD_mem _ _ _ (Nat.mod_lt _ (by rw [operators0_eq]; simp))
    have har := operators0_arity _ hmem
    simpa using har.symm

theorem mkLeaf_children (g : RandGen) (s : ℕ) : (mkLeaf g s).1.children = [] := by
  simp only [mkLeaf]
  split <;> rfl

theorem mkLeaf_op_mem (g : RandGen) (s : ℕ) : (mkLeaf g s).1.op ∈ operators0 := by
  have hmem : operators0.getD (g.nat s % operators0.length) Op.varX ∈ operators0 :=
    getD_mem _ _ _ (Nat.mod_lt _ (by rw [operators0_eq]; simp))
  simp only [mkLeaf]
  split
  · next h => simpa [RawExpr.op, ← h] using hmem
  · simpa [RawExpr.op] using hmem

theorem mkNode_op (g : RandGen) (op : Op) (cs : List RawExpr) (s : ℕ) :
    (mkNode g op cs s).1.op = op := by
  simp only [mkNode]
  split
  · rfl
  · split <;> rfl

theorem mkNode_children (g : RandGen) (op : Op) (cs : List RawExpr) (s : ℕ) :
    (mkNode g op cs s).1.children = cs := by
  simp only [mkNode]
  split
  · rfl
  · split <;> rfl

theorem mkNode_wf (g : RandGen) (op : Op) (cs : List RawExpr) (s : ℕ)
    (hlen : cs.length = op.arity) (hcs : ∀ c ∈ cs, WF c) : WF (mkNode g op cs s).1 := by
  simp only [mkNode]
  split
  · exact WF.node _ _ _ hlen hcs
  · split <;> exact WF.node _ _ _ hlen hcs

theorem generate_isSome (g : RandGen) :
    ∀ (fuel : ℕ) (k : ℤ) (s : ℕ), k.toNat < fuel → (generate g fuel k s).isSome := by
  intro fuel
  induction fuel with
  | zero => intro k s h; exact absurd h (Nat.not_lt_zero _)
  | succ fuel ih =>
      intro k s h
      by_cases hk : k ≤ 0
      · simp [generate, hk]
      · push_neg at hk
        simp only [generate, if_neg (not_le.mpr hk)]
        have hsome : (genList (fun b s0 => generate g fuel b s0)
            (splitBudgets k (sortedCuts g k ((pickOp1 g s).arity - 1) (s + 1)).1)
            (sortedCuts g k ((pickOp1 g s).arity - 1) (s + 1)).2).isSome := by
          apply genList_isSome
          intro b hb s0
          have hblt : b < k :=
            splitBudgets_lt k _ (sortedCuts_bounds g k hk _ _) b hb
          exact ih b s0 (by omega)
        obtain ⟨⟨cs, p⟩, hcs⟩ := Option.isSome_iff_exists.mp hsome
        rw [hcs]
        rfl

theorem generate_wf (g : RandGen) :
    ∀ (fuel : ℕ) (k : ℤ) (s : ℕ) (e : RawExpr) (s1 : ℕ),
      generate g fuel k s = some (e, s1) → WF e := by
  intro fuel
  induction fuel with
  | zero => intro k s e s1 h; exact absurd h (by simp [generate])
  | succ fuel ih =>
      intro k s e s1 h
      by_cases hk : k ≤ 0
      · simp only [generate, if_pos hk, Option.some_inj] at h
        have he : (mkLeaf g s).1 = e := congrArg Prod.fst h
        rw [← he]
        exact mkLeaf_wf g s
      · push_neg at hk
        simp only [generate, if_neg (not_le.mpr hk)] at h
        split at h
        · exact absurd h (by simp)
        · rename_i cs p hcs
          simp only [Option.some_inj] at h
          have he : (mkNode g (pickOp1 g s) cs p).1 = e := congrArg Prod.fst h
          rw [← he]
          obtain ⟨hlen, hmem⟩ := genList_some _ _ _ _ _ hcs
          apply mkNode_wf
          · rw [hlen, splitBudgets_length, sortedCuts_length]
            have := pickOp1_arity_pos g s
            omega
          · intro c hc
            obtain ⟨b, _, s4, s5, hr⟩ := hmem c hc
            exact ih b s4 c s5 hr

/-! ## The claims -/

/-- C1: for every Mod node and coordinates, when the remainder on any of
the three channels fails, which happens exactly when the corresponding
channel of the second child is 0, Mod evaluates to the whole triple
(0,0,0) with no error propagated; when all three remainders succeed, it
evaluates to the channel-wise remainder of the first child by the second. -/
theorem mod_eval_zero_divisor_fallback (e1 e2 : Expr) (x y : ℝ) :
    (∀ a b : ℝ, pymod a b = none ↔ b = 0) ∧
    (pymod (eval e1 x y).1 (eval e2 x y).1 = none ∨
     pymod (eval e1 x y).2.1 (eval e2 x y).2.1 = none ∨
     pymod (eval e1 x y).2.2 (eval e2 x y).2.2 = none →
       eval (.Mod e1 e2) x y = (0, 0, 0)) ∧
    (∀ r g b : ℝ,
       pymod (eval e1 x y).1 (eval e2 x y).1 = some r →
       pymod (eval e1 x y).2.1 (eval e2 x y).2.1 = some g →
       pymod (eval e1 x y).2.2 (eval e2 x y).2.2 = some b →
       eval (.Mod e1 e2) x y = (r, g, b)) := by
  refine ⟨?_, ?_, ?_⟩
  · intro a b
    constructor
    · intro h
      by_contra hb
      simp [pymod, hb] at h
    · intro h
      simp [pymod, h]
  · intro h
    simp only [eval]
    rcases hA : pymod (eval e1 x y).1 (eval e2 x y).1 with _ | r <;>
      rcases hB : pymod (eval e1 x y).2.1 (eval e2 x y).2.1 with _ | g0 <;>
        rcases hC : pymod (eval e1 x y).2.2 (eval e2 x y).2.2 with _ | b0 <;>
          simp_all
  · intro r g0 b0 hA hB hC
    simp only [eval]
    rw [hA, hB, hC]

/-- C1 witness: Mod of VariableX by VariableY at y = 0 falls back to
(0,0,0); at x = 3, y = 2 all remainders succeed and give (1,1,1). -/
theorem mod_eval_zero_divisor_fallback_wit :
    eval (.Mod .VariableX .VariableY) 1 0 = (0, 0, 0) ∧
    eval (.Mod .VariableX .VariableY) 3 2 = (1, 1, 1) := by
  constructor
  · exact (mod_eval_zero_divisor_fallback .VariableX .VariableY 1 0).2.1
      (Or.inl (by norm_num [eval, pymod]))
  · exact (mod_eval_zero_divisor_fallback .VariableX .VariableY 3 2).2.2 1 1 1
      (by norm_num [eval, pymod]) (by norm_num [eval, pymod]) (by norm_num [eval, pymod])

/-- C2: Mix evaluates to the unweighted 0.5/0.5 channel-wise average of
its second and third children; the weight derived from the first child is
never applied, so the result does not depend on the first child at all. -/
theorem mix_eval_ignores_weight (w w2 e1 e2 : Expr) (x y : ℝ) :
    eval (.Mix w e1 e2) x y = average (eval e1 x y) (eval e2 x y) 0.5 ∧
    eval (.Mix w e1 e2) x y = eval (.Mix w2 e1 e2) x y := by
  constructor <;> simp [eval]

/-- C3 counterexample: well(0) is -1, not 1 as the claim states; in
particular it is strictly below 1. -/
theorem well_zero_value_cex : well (0 : ℝ) = -1 ∧ well (0 : ℝ) < 1 := by
  norm_num [well]

/-- C3 amended: the helper well satisfies well(0) == -1, where well(v) is
1 - 2 / (1 + v^2) ^ 8 (the function dips to its minimum at 0). -/
theorem well_zero_eq_neg_one : well (0 : ℝ) = -1 := by
  norm_num [well]

/-- C4: generation terminates for every integer budget: fuel exceeding
the (clamped) budget is always enough stack, because along every path the
child budgets handed out by the cut-point distribution are strictly
smaller than the parent budget k whenever k > 0. -/
theorem generate_terminates_and_budget_decreases :
    (∀ (g : RandGen) (fuel : ℕ) (k : ℤ) (s : ℕ), k.toNat < fuel →
       (generate g fuel k s).isSome) ∧
    (∀ k : ℤ, 0 < k → ∀ cuts : List ℤ, (∀ j ∈ cuts, 0 ≤ j ∧ j < k) →
       ∀ b ∈ splitBudgets k cuts, b < k) :=
  ⟨fun g fuel k s h => generate_isSome g fuel k s h,
   fun k _ cuts hcuts => splitBudgets_lt k cuts hcuts⟩

/-- C4 witness: budget 0 finishes within fuel 1, and every child budget
of a budget-5 node with cut points 1 and 3 is below 5. -/
theorem generate_terminates_and_budget_decreases_wit :
    (generate zeroGen 1 0 0).isSome = true ∧ (2 : ℤ) < 5 := by
  constructor
  · exact generate_terminates_and_budget_decreases.1 zeroGen 1 0 0 (by norm_num)
  · exact generate_terminates_and_budget_decreases.2 5 (by norm_num) [1, 3]
      (by decide) 2 (by decide)

/-- C5: every tree the generator returns is well formed: each node holds
exactly as many children as its kind declares, and a node of an arity-0
kind therefore holds no children. -/
theorem generate_arity_invariant :
    (∀ (g : RandGen) (fuel : ℕ) (k : ℤ) (s : ℕ) (e : RawExpr) (s1 : ℕ),
       generate g fuel k s = some (e, s1) → WF e) ∧
    (∀ (op : Op) (ps : List ℝ) (cs : List RawExpr),
       WF (RawExpr.node op ps cs) → op.arity = 0 → cs = []) := by
  constructor
  · exact generate_wf
  · intro op ps cs h h0
    cases h with
    | node _ _ _ hlen _ => exact List.length_eq_zero.mp (by omega)

/-- C5 witness: the leaf generated from the zero tape at budget 0 is well
formed. -/
theorem generate_arity_invariant_wit : WF (RawExpr.node Op.varX [] []) := by
  have h : generate zeroGen 1 0 0 = some (RawExpr.node Op.varX [] [], 1) := rfl
  exact generate_arity_invariant.1 zeroGen 1 0 0 _ 1 h

/-- C6: the budget distribution of generate: for a composite node of
budget k and arity a it draws a - 1 randrange(k) values at consecutive
tape positions (the tape analogue of independent draws), each in [0, k);
sorts them ascending into cut points (a permutation of the draws); hands
child i the budget c_i - c_(i-1) with c_0 = 0 and the last child the
budget k - 1 - c_(a-1), which is exactly the zipWith formula below; and
any recursive call on a non-positive budget produces a childless arity-0
leaf, exactly as a top-level non-positive budget does. -/
theorem generate_budget_distribution :
    (∀ (g : RandGen) (k : ℤ) (a s : ℕ),
       (drawCuts g k.toNat a s).1 = (List.range a).map (fun l => g.nat (s + l) % k.toNat) ∧
       (0 < k → ∀ j ∈ (sortedCuts g k a s).1, 0 ≤ j ∧ j < k) ∧
       List.Sorted (· ≤ ·) (sortedCuts g k a s).1 ∧
       (sortedCuts g k a s).1.Perm ((drawCuts g k.toNat a s).1.map Int.ofNat)) ∧
    (∀ (k : ℤ) (cuts : List ℤ),
       splitBudgets k cuts = List.zipWith (fun c p => c - p) (cuts ++ [k - 1]) (0 :: cuts)) ∧
    (∀ (g : RandGen) (fuel : ℕ) (k : ℤ) (s : ℕ) (e : RawExpr) (s1 : ℕ), k ≤ 0 →
       generate g fuel k s = some (e, s1) → e.children = [] ∧ (e.op).arity = 0) := by
  refine ⟨?_, ?_, ?_⟩
  · intro g k a s
    refine ⟨drawCuts_fst g k.toNat a s, fun hk => sortedCuts_bounds g k hk a s,
      sortedCuts_sorted g k a s, ?_⟩
    exact List.Perm.map Int.ofNat (List.perm_insertionSort (· ≤ ·) (drawCuts g k.toNat a s).1)
  · intro k cuts
    exact splitBudgetsGo_eq k cuts 0
  · intro g fuel k s e s1 hk h
    cases fuel with
    | zero => exact absurd h (by simp [generate])
    | succ fuel =>
        simp only [generate, if_pos hk, Option.some_inj] at h
        have he : (mkLeaf g s).1 = e := congrArg Prod.fst h
        rw [← he]
        exact ⟨mkLeaf_children g s, operators0_arity _ (mkLeaf_op_mem g s)⟩

/-- C6 witness: budget 5 with cut points 1 and 3 splits into child
budgets 1, 2, 1, and a recursive call at budget -1 produces a childless
leaf. -/
theorem generate_budget_distribution_wit :
    splitBudgets 5 [1, 3] = [1, 2, 1] ∧
    (RawExpr.node Op.varX [] []).children = [] := by
  constructor
  · rw [generate_budget_distribution.2.1 5 [1, 3]]
    decide
  · have h : generate zeroGen 1 (-1) 0 = some (RawExpr.node Op.varX [] [], 1) := rfl
    exact (generate_budget_distribution.2.2 zeroGen 1 (-1) 0 _ 1 (by norm_num) h).1

/-- C7: each channel of the color mapper equals
clamp(0, 255, floor(128 * (v + 1))): the source truncates toward zero
rather than flooring, but after clamping at 0 the two agree; inputs
outside [-1, 1] are clamped, so (-5,-5,-5) maps to (0,0,0) and (5,5,5)
maps to (255,255,255). -/
theorem rgb_clamped_floor_mapping :
    (∀ v : ℝ, rgbChannel v = max 0 (min 255 ⌊128 * (v + 1)⌋)) ∧
    rgb (-5) (-5) (-5) = (0, 0, 0) ∧
    rgb 5 5 5 = (255, 255, 255) := by
  have hch : ∀ v : ℝ, rgbChannel v = max 0 (min 255 ⌊128 * (v + 1)⌋) := by
    intro v
    unfold rgbChannel pyint
    split
    · rfl
    · next h =>
        push_neg at h
        have hceil : ⌈128 * (v + 1)⌉ ≤ 0 := Int.ceil_le.mpr (by exact_mod_cast h.le)
        have hfloor : ⌊128 * (v + 1)⌋ ≤ 0 := Int.floor_nonpos h.le
        omega
  refine ⟨hch, ?_, ?_⟩
  · have h4 : ((128 : ℝ) * ((-5) + 1)) = ((-512 : ℤ) : ℝ) := by norm_num
    simp only [rgb, hch, h4, Int.floor_intCast]
    decide
  · have h4 : ((128 : ℝ) * (5 + 1)) = ((768 : ℤ) : ℝ) := by norm_num
    simp only [rgb, hch, h4, Int.floor_intCast]
    decide

/-- C8: with a non-positive budget, generate picks its root among exactly
the arity-0 kinds (VariableX, VariableY, Constant) and returns a leaf
with no children; with a positive budget it picks the root among exactly
the kinds of positive arity. The selection indexes the respective kind
list by a fresh tape draw reduced modulo the list length, the tape model
of a uniform random.choice, and every index below the list length is
realized by some tape. -/
theorem generate_variant_selection :
    (∀ (g : RandGen) (fuel : ℕ) (k : ℤ) (s : ℕ) (e : RawExpr) (s1 : ℕ),
       generate g fuel k s = some (e, s1) →
         (k ≤ 0 → e.op ∈ operators0 ∧ e.children = []) ∧
         (0 < k → e.op ∈ operators1)) ∧
    (operators0 = [Op.varX, Op.varY, Op.const] ∧
     operators1 = [Op.sum, Op.product, Op.mod, Op.sin, Op.tent, Op.well, Op.level, Op.mix]) ∧
    ((∀ op ∈ operators0, op.arity = 0) ∧ (∀ op ∈ operators1, 0 < op.arity)) ∧
    (∀ i : ℕ, i < operators0.length →
       ∃ (e : RawExpr) (s1 : ℕ),
         generate ⟨fun _ => i, fun _ => 0⟩ 1 0 0 = some (e, s1) ∧
         e.op = operators0.getD i Op.sum) ∧
    (∀ i : ℕ, i < operators1.length →
       ∃ (e : RawExpr) (s1 : ℕ),
         generate ⟨fun _ => i, fun _ => 0⟩ 2 1 0 = some (e, s1) ∧
         e.op = operators1.getD i Op.varX) := by
  refine ⟨?_, ⟨operators0_eq, operators1_eq⟩, ⟨operators0_arity, operators1_arity⟩, ?_, ?_⟩
  · intro g fuel k s e s1 h
    cases fuel with
    | zero => exact absurd h (by simp [generate])
    | succ fuel =>
        by_cases hk : k ≤ 0
        · simp only [generate, if_pos hk, Option.some_inj] at h
          have he : (mkLeaf g s).1 = e := congrArg Prod.fst h
          rw [← he]
          exact ⟨fun _ => ⟨mkLeaf_op_mem g s, mkLeaf_children g s⟩,
            fun hk0 => absurd hk (by omega)⟩
        · push_neg at hk
          simp only [generate, if_neg (not_le.mpr hk)] at h
          split at h
          · exact absurd h (by simp)
          · rename_i cs p hcs
            simp only [Option.some_inj] at h
            have he : (mkNode g (pickOp1 g s) cs p).1 = e := congrArg Prod.fst h
            rw [← he]
            refine ⟨fun hk0 => absurd hk0 (by omega), fun _ => ?_⟩
            rw [mkNode_op]
            exact pickOp1_mem g s
  · intro i hi
    rw [operators0_eq] at hi
    simp only [List.length_cons, List.length_nil] at hi
    interval_cases i <;> exact ⟨_, _, rfl, rfl⟩
  · intro i hi
    rw [operators1_eq] at hi
    simp only [List.length_cons, List.length_nil] at hi
    interval_cases i <;> exact ⟨_, _, rfl, rfl⟩

/-- C8 witness: the zero tape at budget 0 yields a VariableX leaf, whose
kind is among the arity-0 kinds and which has no children. -/
theorem generate_variant_selection_wit :
    (RawExpr.node Op.varX [] []).op ∈ operators0 ∧
    (RawExpr.node Op.varX [] []).children = [] := by
  have h : generate zeroGen 1 0 0 = some (RawExpr.node Op.varX [] [], 1) := rfl
  exact (generate_variant_selection.1 zeroGen 1 0 0 _ 1 h).1 le_rfl

/-- C9: evaluation is deterministic and mutation-free: with the ambient
world (tree identity and random-stream position) threaded explicitly,
evaluating any tree at any coordinates returns the pure value eval e x y
independently of the stream position, returns the tree unchanged
(including all stored parameters), and leaves the stream position
untouched, so no randomness is drawn and two calls agree. -/
theorem eval_pure_deterministic :
    ∀ (e : Expr) (x y : ℝ) (s : ℕ), evalM e x y s = (eval e x y, e, s) := by
  intro e
  induction e with
  | VariableX => intro x y s; rfl
  | VariableY => intro x y s; rfl
  | Constant c => intro x y s; rfl
  | Sum e1 e2 ih1 ih2 => intro x y s; simp [evalM, eval, ih1, ih2]
  | Product e1 e2 ih1 ih2 => intro x y s; simp [evalM, eval, ih1, ih2]
  | Mod e1 e2 ih1 ih2 => intro x y s; simp [evalM, eval, ih1, ih2]
  | Well e ih => intro x y s; simp [evalM, eval, ih]
  | Tent e ih => intro x y s; simp [evalM, eval, ih]
  | Sin phase freq e ih => intro x y s; simp [evalM, eval, ih]
  | Level t lv e1 e2 ihl ih1 ih2 => intro x y s; simp [evalM, eval, ihl, ih1, ih2]
  | Mix w e1 e2 ihw ih1 ih2 => intro x y s; simp [evalM, eval, ihw, ih1, ih2]

/-- C10: every channel of a Sin node evaluation lies in [-1, 1], whatever
triple the child produces, because each channel is the sine of
phase + frequency * child channel. -/
theorem sin_eval_bounded (phase freq : ℝ) (e : Expr) (x y : ℝ) :
    (-1 ≤ (eval (.Sin phase freq e) x y).1 ∧ (eval (.Sin phase freq e) x y).1 ≤ 1) ∧
    (-1 ≤ (eval (.Sin phase freq e) x y).2.1 ∧ (eval (.Sin phase freq e) x y).2.1 ≤ 1) ∧
    (-1 ≤ (eval (.Sin phase freq e) x y).2.2 ∧ (eval (.Sin phase freq e) x y).2.2 ≤ 1) := by
  simp only [eval]
  exact ⟨⟨Real.neg_one_le_sin _, Real.sin_le_one _⟩,
    ⟨Real.neg_one_le_sin _, Real.sin_le_one _⟩,
    ⟨Real.neg_one_le_sin _, Real.sin_le_one _⟩⟩
